import Mathlib

/-!
Shallow embedding of `src/main.py` (a toy block-mining program):
transaction validation, Merkle-root computation, proof-of-work mining,
the block ledger and the mining orchestrator.

Python exceptions are modelled with `Except PyErr`; the unbounded mining
loop is modelled with explicit fuel (`none` = fuel exhausted, i.e. the run
we observe did not yet terminate).  Machine-level values are `Nat`/`Int`
with explicit `% 2 ^ w` where the SHA-256 rounds wrap.
-/

/-- Python exception values that `main.py` can raise. -/
inductive PyErr where
  | keyErr (key : String)
  | indexErr
  | valueErr
  | assertionErr
  deriving DecidableEq, Repr

instance {ε α} [DecidableEq ε] [DecidableEq α] : DecidableEq (Except ε α) :=
  fun a b =>
    match a, b with
    | .ok x, .ok y =>
      if h : x = y then .isTrue (by rw [h]) else .isFalse (by intro hc; cases hc; exact h rfl)
    | .error x, .error y =>
      if h : x = y then .isTrue (by rw [h]) else .isFalse (by intro hc; cases hc; exact h rfl)
    | .ok _, .error _ => .isFalse (by intro hc; cases hc)
    | .error _, .ok _ => .isFalse (by intro hc; cases hc)

/-! ## Hex strings (`int(s, 16)` and `hexdigest`) -/

/-- Value of one hexadecimal digit, as Python `int(_, 16)` accepts it
(both cases); `none` for a non-hex character. -/
def hexDigitVal (c : Char) : Option Nat :=
  if '0' ≤ c ∧ c ≤ '9' then some (c.toNat - 48)
  else if 'a' ≤ c ∧ c ≤ 'f' then some (c.toNat - 87)
  else if 'A' ≤ c ∧ c ≤ 'F' then some (c.toNat - 55)
  else none

/-- One step of hex parsing: shift in the next digit, `none` once any
character failed to parse. -/
def hexFoldStep (acc : Option Nat) (c : Char) : Option Nat :=
  match acc, hexDigitVal c with
  | some a, some d => some (a * 16 + d)
  | _, _ => none

/-- Parse a plain hexadecimal string (no sign/prefix/underscores, which the
program never uses); `none` when empty or containing a non-hex character. -/
def hexToNat (s : String) : Option Nat :=
  match s.data with
  | [] => none
  | cs => cs.foldl hexFoldStep (some 0)

/-- Python `int(s, 16)`: raises `ValueError` on a malformed literal. -/
def intFromHex (s : String) : Except PyErr Nat :=
  match hexToNat s with
  | some v => .ok v
  | none => .error .valueErr

/-- Lower-case hex digit character for a value `< 16`. -/
def hexChar (d : Nat) : Char :=
  if d < 10 then Char.ofNat (48 + d) else Char.ofNat (87 + d)

/-- Big-endian fixed-width hex rendering (`width` digits). -/
def natToHex : Nat → Nat → List Char
  | 0, _ => []
  | w + 1, n => hexChar (n / 16 ^ w % 16) :: natToHex w n

/-! ## UTF-8 encoding (`str.encode()`) -/

/-- UTF-8 bytes of one character. -/
def utf8Char (c : Char) : List Nat :=
  let n := c.toNat
  if n < 0x80 then [n]
  else if n < 0x800 then [0xc0 + n / 64, 0x80 + n % 64]
  else if n < 0x10000 then
    [0xe0 + n / 4096, 0x80 + n / 64 % 64, 0x80 + n % 64]
  else
    [0xf0 + n / 262144, 0x80 + n / 4096 % 64, 0x80 + n / 64 % 64, 0x80 + n % 64]

/-- UTF-8 bytes of a string, as `s.encode('utf-8')` produces them. -/
def utf8Bytes (s : String) : List Nat :=
  (s.data.map utf8Char).flatten

/-! ## SHA-256 (`hashlib.sha256`), FIPS 180-4, over byte lists -/

/-- 32-bit right rotation (input assumed `< 2 ^ 32`). -/
def rotr32 (k x : Nat) : Nat := x / 2 ^ k + x % 2 ^ k * 2 ^ (32 - k)

def sha256Ch (x y z : Nat) : Nat := (x &&& y) ^^^ ((x ^^^ 0xffffffff) &&& z)

def sha256Maj (x y z : Nat) : Nat := (x &&& y) ^^^ (x &&& z) ^^^ (y &&& z)

def bigSigma0 (x : Nat) : Nat := rotr32 2 x ^^^ rotr32 13 x ^^^ rotr32 22 x

def bigSigma1 (x : Nat) : Nat := rotr32 6 x ^^^ rotr32 11 x ^^^ rotr32 25 x

def smallSigma0 (x : Nat) : Nat := rotr32 7 x ^^^ rotr32 18 x ^^^ x / 2 ^ 3

def smallSigma1 (x : Nat) : Nat := rotr32 17 x ^^^ rotr32 19 x ^^^ x / 2 ^ 10

/-- The 64 SHA-256 round constants. -/
def sha256K : List Nat :=
  [1116352408, 1899447441, 3049323471, 3921009573,
   961987163, 1508970993, 2453635748, 2870763221,
   3624381080, 310598401, 607225278, 1426881987,
   1925078388, 2162078206, 2614888103, 3248222580,
   3835390401, 4022224774, 264347078, 604807628,
   770255983, 1249150122, 1555081692, 1996064986,
   2554220882, 2821834349, 2952996808, 3210313671,
   3336571891, 3584528711, 113926993, 338241895,
   666307205, 773529912, 1294757372, 1396182291,
   1695183700, 1986661051, 2177026350, 2456956037,
   2730485921, 2820302411, 3259730800, 3345764771,
   3516065817, 3600352804, 4094571909, 275423344,
   430227734, 506948616, 659060556, 883997877,
   958139571, 1322822218, 1537002063, 1747873779,
   1955562222, 2024104815, 2227730452, 2361852424,
   2428436474, 2756734187, 3204031479, 3329325298]

/-- Initial SHA-256 state. -/
def sha256H0 : List Nat :=
  [1779033703, 3144134277, 1013904242, 2773480762,
   1359893119, 2600822924, 528734635, 1541459225]

/-- Split a byte list into chunks of `k` bytes, structurally recursive on a
step bound (the list length suffices since `k ≥ 1` at every use). -/
def chunksOfAux (k : Nat) : Nat → List Nat → List (List Nat)
  | 0, _ => []
  | _, [] => []
  | bound + 1, b :: rest =>
    (b :: rest).take k :: chunksOfAux k bound ((b :: rest).drop k)

/-- Split a byte list into chunks of `k` bytes. -/
def chunksOf (k : Nat) (l : List Nat) : List (List Nat) :=
  chunksOfAux k l.length l

/-- Big-endian 32-bit word from (up to) four bytes. -/
def wordOfBytes (bs : List Nat) : Nat :=
  bs.foldl (fun acc b => acc * 256 + b) 0

/-- Big-endian 8-byte rendering of a (length) value. -/
def bytes8 (n : Nat) : List Nat :=
  [n / 2 ^ 56 % 256, n / 2 ^ 48 % 256, n / 2 ^ 40 % 256, n / 2 ^ 32 % 256,
   n / 2 ^ 24 % 256, n / 2 ^ 16 % 256, n / 2 ^ 8 % 256, n % 256]

/-- SHA-256 padding: append `0x80`, zeros to 56 mod 64, and the 64-bit
big-endian bit length. -/
def sha256Pad (msg : List Nat) : List Nat :=
  msg ++ 0x80 :: List.replicate ((119 - msg.length % 64) % 64) 0
      ++ bytes8 (msg.length * 8)

/-- Extend the 16 block words with `count` further schedule words
(accumulating in reverse). -/
def sha256Extend : Nat → List Nat → List Nat
  | 0, acc => acc
  | n + 1, acc =>
    let w2 := (acc.drop 1).headD 0
    let w7 := (acc.drop 6).headD 0
    let w15 := (acc.drop 14).headD 0
    let w16 := (acc.drop 15).headD 0
    sha256Extend n
      ((smallSigma1 w2 + w7 + smallSigma0 w15 + w16) % 2 ^ 32 :: acc)

/-- The 64 schedule words of one 64-byte block. -/
def sha256Schedule (block : List Nat) : List Nat :=
  let w16 := (chunksOf 4 block).map wordOfBytes
  (sha256Extend 48 w16.reverse).reverse

/-- One compression round. -/
def sha256Round (st : List Nat) (kw : Nat × Nat) : List Nat :=
  match st with
  | [a, b, c, d, e, f, g, h] =>
    let t1 := (h + bigSigma1 e + sha256Ch e f g + kw.1 + kw.2) % 2 ^ 32
    let t2 := (bigSigma0 a + sha256Maj a b c) % 2 ^ 32
    [(t1 + t2) % 2 ^ 32, a, b, c, (d + t1) % 2 ^ 32, e, f, g]
  | st => st

/-- Compress one 64-byte block into the running state. -/
def sha256Compress (st : List Nat) (block : List Nat) : List Nat :=
  let out := (sha256K.zip (sha256Schedule block)).foldl sha256Round st
  (st.zip out).map (fun p => (p.1 + p.2) % 2 ^ 32)

/-- SHA-256 digest of a byte list, as a 256-bit natural number. -/
def sha256Nat (msg : List Nat) : Nat :=
  let final := (chunksOf 64 (sha256Pad msg)).foldl sha256Compress sha256H0
  final.foldl (fun acc w => acc * 2 ^ 32 + w) 0

/-- `hashlib.sha256(s.encode()).hexdigest()`: 64 lower-case hex digits. -/
def sha256Hex (s : String) : String :=
  String.mk (natToHex 64 (sha256Nat (utf8Bytes s)))

/-! ## Transaction records

`main.py` keeps each transaction as a raw JSON dict (`json_data`) and reads
only these fields; a missing field raises `KeyError` at the access site, so
every field the validator may read is modelled as an `Option`. -/

/-- The `prevout` sub-dict of an input (only `value` is read). -/
structure PrevOut where
  value : Option Int
  deriving DecidableEq, Repr

/-- One entry of `json_data["vin"]`. -/
structure VinEntry where
  txid : Option String
  vout : Option Int
  prevout : Option PrevOut
  is_coinbase : Option Bool
  deriving DecidableEq, Repr

/-- One entry of `json_data["vout"]`. -/
structure VoutEntry where
  value : Option Int
  deriving DecidableEq, Repr

/-- The JSON dict behind a transaction (the fields `main.py` reads;
`witness` holds the serialized text of the witness value, used only for
presence and for the serialized-size model). -/
structure TxData where
  version : Option Int
  locktime : Option Int
  vin : Option (List VinEntry)
  vout : Option (List VoutEntry)
  witness : Option String
  deriving DecidableEq, Repr

/-- The `Transaction` dataclass: the JSON dict plus the UTXO-set snapshot
(`utxo_set` keys are the strings `txid + str(vout)`; the mapped values are
never read by the core, so only the key set is modelled). -/
structure Transaction where
  json_data : TxData
  utxo_set : List String
  deriving DecidableEq, Repr

/-- `Transaction.txid` property: `self.json_data["vin"][0]["txid"]`. -/
def Transaction.txid (t : Transaction) : Except PyErr String :=
  match t.json_data.vin with
  | none => .error (.keyErr "vin")
  | some [] => .error .indexErr
  | some (v0 :: _) =>
    match v0.txid with
    | none => .error (.keyErr "txid")
    | some s => .ok s

/-! ### `len(json.dumps(json_data).encode('utf-8'))`

The serialized size of the record under `json.dumps` defaults
(separators `", "` / `": "`, `ensure_ascii=True`, keys in the dict's
insertion order, taken here as the canonical field order). -/

/-- Rendered length of one character inside a JSON string literal. -/
def jsonEscLen (c : Char) : Nat :=
  let n := c.toNat
  if c = '"' ∨ c = '\\' then 2
  else if n = 8 ∨ n = 9 ∨ n = 10 ∨ n = 12 ∨ n = 13 then 2
  else if n < 0x20 then 6
  else if n < 0x7f then 1
  else if n < 0x10000 then 6
  else 12

/-- Rendered length of a JSON string literal (quotes plus escapes). -/
def jsonStrLen (s : String) : Nat := 2 + (s.data.map jsonEscLen).foldl (· + ·) 0

/-- Length of a brace/bracket-delimited sequence with `", "` separators,
given the rendered lengths of its items. -/
def jsonSeqLen (items : List Nat) : Nat :=
  2 + items.foldl (· + ·) 0 + 2 * (items.length - 1)

def jsonIntLen (i : Int) : Nat := (toString i).length

def jsonBoolLen (b : Bool) : Nat := if b then 4 else 5

/-- Object entry `"key": value` when the field is present. -/
def jsonEntry (key : String) : Option Nat → List Nat
  | none => []
  | some n => [jsonStrLen key + 2 + n]

def prevOutLen (p : PrevOut) : Nat :=
  jsonSeqLen (jsonEntry "value" (p.value.map jsonIntLen))

def vinEntryLen (v : VinEntry) : Nat :=
  jsonSeqLen (jsonEntry "txid" (v.txid.map jsonStrLen)
    ++ jsonEntry "vout" (v.vout.map jsonIntLen)
    ++ jsonEntry "prevout" (v.prevout.map prevOutLen)
    ++ jsonEntry "is_coinbase" (v.is_coinbase.map jsonBoolLen))

def voutEntryLen (o : VoutEntry) : Nat :=
  jsonSeqLen (jsonEntry "value" (o.value.map jsonIntLen))

def jsonDumpsLen (d : TxData) : Nat :=
  jsonSeqLen (jsonEntry "version" (d.version.map jsonIntLen)
    ++ jsonEntry "locktime" (d.locktime.map jsonIntLen)
    ++ jsonEntry "vin" (d.vin.map (fun l => jsonSeqLen (l.map vinEntryLen)))
    ++ jsonEntry "vout" (d.vout.map (fun l => jsonSeqLen (l.map voutEntryLen)))
    ++ jsonEntry "witness" (d.witness.map String.length))

/-! ### Validation -/

/-- `vin["txid"] + str(vin["vout"])`, the UTXO-set key of an input. -/
def vinUtxoKey (v : VinEntry) : Except PyErr String :=
  match v.txid with
  | none => .error (.keyErr "txid")
  | some tid =>
    match v.vout with
    | none => .error (.keyErr "vout")
    | some n => .ok (tid ++ toString n)

/-- Python `any` over a generator: items are forced left to right, stopping
at the first `True`; an exception raised by an item propagates. -/
def anyExc (f : α → Except PyErr Bool) : List α → Except PyErr Bool
  | [] => .ok false
  | a :: rest =>
    match f a with
    | .error e => .error e
    | .ok true => .ok true
    | .ok false => anyExc f rest

/-- `sum(vin["prevout"]["value"] for vin in vins)`: forced left to right,
raising at the first input without a `prevout` (or without its `value`). -/
def sumPrevExc : List VinEntry → Except PyErr Int
  | [] => .ok 0
  | v :: rest =>
    match v.prevout with
    | none => .error (.keyErr "prevout")
    | some p =>
      match p.value with
      | none => .error (.keyErr "value")
      | some x => (sumPrevExc rest).map (fun s => x + s)

/-- `sum(vout["value"] for vout in vouts)`. -/
def sumVoutExc : List VoutEntry → Except PyErr Int
  | [] => .ok 0
  | o :: rest =>
    match o.value with
    | none => .error (.keyErr "value")
    | some x => (sumVoutExc rest).map (fun s => x + s)

/-- Placeholder witness check (`main.py` line 54): always accepts. -/
def Transaction.validate_witness_data (_ : Transaction) : Bool := true

/-- `Transaction.is_valid` (`main.py` lines 15-52), check for check in
source order, with the exact raise points of the dict subscripts. -/
def Transaction.is_valid (t : Transaction) : Except PyErr Bool :=
  match t.json_data.version with
  | none => .ok false
  | some ver =>
    if ¬(ver = 1 ∨ ver = 2) then .ok false
    else
      match t.json_data.locktime with
      | none => .ok false
      | some lt =>
        if ¬(lt = 0 ∨ lt > 0) then .ok false
        else
          match t.json_data.vin with
          | none => .error (.keyErr "vin")
          | some [] => .ok false
          | some (v0 :: vrest) =>
            match t.json_data.vout with
            | none => .error (.keyErr "vout")
            | some [] => .ok false
            | some (o0 :: orest) =>
              if jsonDumpsLen t.json_data > 100000 then .ok false
              else
                match anyExc (fun v => (vinUtxoKey v).map
                    (fun k => t.utxo_set.contains k)) (v0 :: vrest) with
                | .error e => .error e
                | .ok true => .ok false
                | .ok false =>
                  match anyExc (fun o =>
                      match o.value with
                      | none => .error (.keyErr "value")
                      | some x => .ok (decide (x < 0))) (o0 :: orest) with
                  | .error e => .error e
                  | .ok true => .ok false
                  | .ok false =>
                    match sumPrevExc (v0 :: vrest) with
                    | .error e => .error e
                    | .ok sumIn =>
                      match sumVoutExc (o0 :: orest) with
                      | .error e => .error e
                      | .ok sumOut =>
                        if sumIn < sumOut then .ok false
                        else
                          let is_coinbase :=
                            (v0 :: vrest).any (fun v => v.is_coinbase.getD false)
                          if is_coinbase ∧
                              ((v0 :: vrest).length ≠ 1 ∨ v0.prevout.isSome) then
                            .ok false
                          else
                            if t.json_data.witness.isSome ∧
                                ¬t.validate_witness_data then .ok false
                            else .ok true


/-! ### Python string ordering

Python `sorted` compares strings lexicographically over their code-point
sequences; this is that comparison, done structurally so that it also
evaluates inside the kernel. -/

/-- Lexicographic `<=` on code-point sequences, as Python compares `str`. -/
def charListLe : List Char → List Char → Bool
  | [], _ => true
  | _ :: _, [] => false
  | a :: as, b :: bs =>
    if a < b then true
    else if b < a then false
    else charListLe as bs

/-- Python string `<=` (the order `sorted` produces). -/
def pyLe (a b : String) : Prop := charListLe a.data b.data = true

instance : DecidableRel pyLe := fun _ _ => instDecidableEqBool _ _

lemma charListLe_total : ∀ as bs, charListLe as bs = true ∨ charListLe bs as = true := by
  intro as
  induction as with
  | nil => intro bs; left; rfl
  | cons a as ih =>
    intro bs
    cases bs with
    | nil => right; rfl
    | cons b bs =>
      rcases lt_trichotomy a b with hab | hab | hab
      · left; simp [charListLe, hab]
      · subst hab
        rcases ih bs with h | h
        · left; simp [charListLe, lt_irrefl, h]
        · right; simp [charListLe, lt_irrefl, h]
      · right; simp [charListLe, hab]

lemma charListLe_trans :
    ∀ as bs cs, charListLe as bs = true → charListLe bs cs = true →
      charListLe as cs = true := by
  intro as
  induction as with
  | nil => intros; rfl
  | cons a as ih =>
    intro bs cs h1 h2
    cases bs with
    | nil => simp [charListLe] at h1
    | cons b bs =>
      cases cs with
      | nil => simp [charListLe] at h2
      | cons c cs =>
        simp only [charListLe] at h1 h2 ⊢
        rcases lt_trichotomy a b with hab | hab | hab
        · rcases lt_trichotomy b c with hbc | hbc | hbc
          · simp [lt_trans hab hbc]
          · subst hbc; simp [hab]
          · simp [hab, asymm hab, not_lt_of_gt hab] at h1 ⊢
            simp [hbc, asymm hbc] at h2
        · subst hab
          rcases lt_trichotomy a c with hac | hac | hac
          · simp [hac]
          · subst hac
            simp [lt_irrefl] at h1 h2 ⊢
            exact ih bs cs h1 h2
          · simp [hac, asymm hac] at h2
        · simp [hab, asymm hab] at h1

lemma charListLe_antisymm :
    ∀ as bs, charListLe as bs = true → charListLe bs as = true → as = bs := by
  intro as
  induction as with
  | nil =>
    intro bs _ h2
    cases bs with
    | nil => rfl
    | cons b bs => simp [charListLe] at h2
  | cons a as ih =>
    intro bs h1 h2
    cases bs with
    | nil => simp [charListLe] at h1
    | cons b bs =>
      simp only [charListLe] at h1 h2
      rcases lt_trichotomy a b with hab | hab | hab
      · simp [hab, asymm hab] at h2
      · subst hab
        simp [lt_irrefl] at h1 h2
        rw [ih bs h1 h2]
      · simp [hab, asymm hab] at h1

instance : IsTotal String pyLe := ⟨fun a b => charListLe_total a.data b.data⟩

instance : IsTrans String pyLe :=
  ⟨fun a b c h1 h2 => charListLe_trans a.data b.data c.data h1 h2⟩

instance : IsAntisymm String pyLe := by
  refine ⟨fun a b h1 h2 => ?_⟩
  cases a; cases b
  exact congrArg String.mk (charListLe_antisymm _ _ h1 h2)

instance : IsRefl String pyLe := by
  refine ⟨fun a => ?_⟩
  rcases charListLe_total a.data a.data with h | h <;> exact h

/-! ## Blocks, mining, the ledger and the miner -/

/-- The `Block` dataclass (`main.py` lines 58-63), with its Python
defaults `nonce = 0`, `hash = ""`. -/
structure Block where
  transactions : List Transaction
  previous_hash : String
  nonce : Int := 0
  hash : String := ""
  deriving DecidableEq, Repr

/-- The txids of the listed transactions, forced left to right as the
generator inside `sorted(...)` forces them. -/
def txidsOf : List Transaction → Except PyErr (List String)
  | [] => .ok []
  | t :: ts =>
    match t.txid with
    | .error e => .error e
    | .ok i =>
      match txidsOf ts with
      | .error e => .error e
      | .ok is => .ok (i :: is)

/-- `Block.merkle_root` (lines 70-72): digest of the lexicographically
sorted concatenation of the included txids. -/
def Block.merkle_root (b : Block) : Except PyErr String :=
  match txidsOf b.transactions with
  | .error e => .error e
  | .ok ids => .ok (sha256Hex (String.join (List.insertionSort pyLe ids)))

/-- `Block.calculate_hash` (lines 65-68). -/
def Block.calculate_hash (b : Block) : Except PyErr String :=
  match b.merkle_root with
  | .error e => .error e
  | .ok mr => .ok (sha256Hex (b.previous_hash ++ toString b.nonce ++ mr))

/-- The `while True` search of `Block.mine` (lines 77-81) with explicit
fuel; `none` means the observed run has not terminated yet. -/
def Block.mineFuel (target : Nat) (b : Block) : Nat → Except PyErr (Option Block)
  | 0 => .ok none
  | fuel + 1 =>
    match b.calculate_hash with
    | .error e => .error e
    | .ok h =>
      match intFromHex h with
      | .error e => .error e
      | .ok v =>
        if v < target then .ok (some { b with hash := h })
        else Block.mineFuel target { b with hash := h, nonce := b.nonce + 1 } fuel

/-- `Block.mine` (lines 74-81): length-64 assert, `int(difficulty, 16)`,
then the search loop. -/
def Block.mine (b : Block) (difficulty : String) (fuel : Nat) :
    Except PyErr (Option Block) :=
  if difficulty.length = 64 then
    match intFromHex difficulty with
    | .error e => .error e
    | .ok target => Block.mineFuel target b fuel
  else .error .assertionErr

/-- The `Blockchain` dataclass (lines 83-85). -/
structure Blockchain where
  blocks : List Block := []
  deriving DecidableEq, Repr

/-- `Blockchain.add_block` (lines 87-88): an unconditional list append. -/
def Blockchain.add_block (bc : Blockchain) (b : Block) : Blockchain :=
  { blocks := bc.blocks ++ [b] }

/-- The difficulty constant set in `Miner.__init__` (line 95). -/
def minerDifficulty : String :=
  "0000ffff00000000000000000000000000000000000000000000000000000000"

/-- `'0' * 64`, the genesis previous-hash sentinel (line 114). -/
def genesisPrev : String := String.mk (List.replicate 64 '0')

/-- The mutable state of a `Miner` object (lines 90-96); `mempool_path`
and file loading are I/O outside the core. -/
structure Miner where
  transactions : List Transaction := []
  blockchain : Blockchain := {}
  difficulty : String := minerDifficulty
  utxo_set : List String := []
  deriving DecidableEq, Repr

/-- `Miner.select_transactions_for_block` (lines 110-111):
`self.transactions[:10]`. -/
def Miner.select_transactions_for_block (m : Miner) : List Transaction :=
  m.transactions.take 10

/-- `Miner.mine_block` (lines 113-119), returning the updated miner state
and the new block (`none` when the mining fuel ran out). -/
def Miner.mine_block (m : Miner) (fuel : Nat) :
    Except PyErr (Option (Miner × Block)) :=
  let previous_hash :=
    match m.blockchain.blocks.getLast? with
    | none => genesisPrev
    | some tip => tip.hash
  let transactions := m.select_transactions_for_block
  let new_block : Block := { transactions := transactions, previous_hash := previous_hash }
  match new_block.mine m.difficulty fuel with
  | .error e => .error e
  | .ok none => .ok none
  | .ok (some sealed) =>
    .ok (some ({ m with blockchain := m.blockchain.add_block sealed }, sealed))

/-! ## Helper lemmas -/

/-- `'f' * 64`, the all-ones difficulty target `2 ^ 256 - 1`. -/
def allF : String := String.mk (List.replicate 64 'f')

lemma hexDigitVal_hexChar (d : Nat) (hd : d < 16) : hexDigitVal (hexChar d) = some d := by
  have h : ∀ e, e < 16 → hexDigitVal (hexChar e) = some e := by decide
  exact h d hd

lemma foldl_hexFoldStep_natToHex :
    ∀ (w n a : Nat), (natToHex w n).foldl hexFoldStep (some a) =
      some (a * 16 ^ w + n % 16 ^ w) := by
  intro w
  induction w with
  | zero => intro n a; simp [natToHex, Nat.mod_one]
  | succ w ih =>
    intro n a
    have hstep : natToHex (w + 1) n = hexChar (n / 16 ^ w % 16) :: natToHex w n := rfl
    rw [hstep, List.foldl_cons]
    have hd : hexFoldStep (some a) (hexChar (n / 16 ^ w % 16)) =
        some (a * 16 + n / 16 ^ w % 16) := by
      simp [hexFoldStep, hexDigitVal_hexChar _ (Nat.mod_lt _ (by norm_num))]
    rw [hd, ih]
    have hmod : n % 16 ^ (w + 1) = n % 16 ^ w + 16 ^ w * (n / 16 ^ w % 16) := by
      rw [pow_succ]; exact Nat.mod_mul
    refine congrArg some ?_
    rw [hmod]
    ring

lemma hexToNat_mk_natToHex64 (n : Nat) (hn : n < 2 ^ 256) :
    hexToNat (String.mk (natToHex 64 n)) = some n := by
  have h0 : natToHex 64 n = hexChar (n / 16 ^ 63 % 16) :: natToHex 63 n := rfl
  have h1 : hexToNat (String.mk (natToHex 64 n)) =
      (natToHex 64 n).foldl hexFoldStep (some 0) := by
    rw [h0]; rfl
  rw [h1, foldl_hexFoldStep_natToHex]
  have h2 : n % 16 ^ 64 = n := Nat.mod_eq_of_lt (lt_of_lt_of_le hn (by norm_num))
  rw [Nat.zero_mul, Nat.zero_add, h2]

lemma sha256Compress_length (st bl : List Nat) :
    (sha256Compress st bl).length ≤ st.length := by
  simp [sha256Compress, List.length_zip]

lemma sha256Compress_lt (st bl : List Nat) : ∀ x ∈ sha256Compress st bl, x < 2 ^ 32 := by
  intro x hx
  rw [sha256Compress, List.mem_map] at hx
  obtain ⟨p, _, rfl⟩ := hx
  exact Nat.mod_lt _ (by norm_num)

lemma foldl_compress_inv (chs : List (List Nat)) :
    ∀ st : List Nat, st.length ≤ 8 → (∀ x ∈ st, x < 2 ^ 32) →
      (chs.foldl sha256Compress st).length ≤ 8 ∧
        ∀ x ∈ chs.foldl sha256Compress st, x < 2 ^ 32 := by
  induction chs with
  | nil => exact fun st h1 h2 => ⟨h1, h2⟩
  | cons c cs ih =>
    intro st h1 _
    exact ih _ (le_trans (sha256Compress_length _ _) h1) (sha256Compress_lt _ _)

lemma foldl_word_lt (l : List Nat) :
    ∀ a C : Nat, (∀ x ∈ l, x < 2 ^ 32) → a < C →
      l.foldl (fun acc w => acc * 2 ^ 32 + w) a < C * (2 ^ 32) ^ l.length := by
  induction l with
  | nil => intro a C _ ha; simpa using ha
  | cons x xs ih =>
    intro a C hl ha
    have hx : x < 2 ^ 32 := hl x (List.mem_cons_self x xs)
    have hstep : a * 2 ^ 32 + x < C * 2 ^ 32 := by
      rw [show (2 : Nat) ^ 32 = 4294967296 from by norm_num] at hx ⊢
      omega
    have hxs := ih (a * 2 ^ 32 + x) (C * 2 ^ 32)
      (fun y hy => hl y (List.mem_cons_of_mem _ hy)) hstep
    calc (x :: xs).foldl (fun acc w => acc * 2 ^ 32 + w) a
        = xs.foldl (fun acc w => acc * 2 ^ 32 + w) (a * 2 ^ 32 + x) := by
          rw [List.foldl_cons]
      _ < C * 2 ^ 32 * (2 ^ 32) ^ xs.length := hxs
      _ = C * (2 ^ 32) ^ (x :: xs).length := by rw [List.length_cons]; ring

lemma sha256Nat_lt (msg : List Nat) : sha256Nat msg < 2 ^ 256 := by
  unfold sha256Nat
  obtain ⟨hlen, helt⟩ :=
    foldl_compress_inv (chunksOf 64 (sha256Pad msg)) sha256H0 (by decide) (by decide)
  have hbound := foldl_word_lt _ 0 1 helt (by norm_num)
  calc ((chunksOf 64 (sha256Pad msg)).foldl sha256Compress sha256H0).foldl
        (fun acc w => acc * 2 ^ 32 + w) 0
      < 1 * (2 ^ 32) ^ ((chunksOf 64 (sha256Pad msg)).foldl sha256Compress sha256H0).length :=
        hbound
    _ ≤ 1 * (2 ^ 32) ^ 8 := by
        have := Nat.pow_le_pow_right (show 1 ≤ 2 ^ 32 by norm_num) hlen
        omega
    _ = 2 ^ 256 := by norm_num

lemma intFromHex_sha256Hex (s : String) :
    intFromHex (sha256Hex s) = .ok (sha256Nat (utf8Bytes s)) := by
  unfold intFromHex sha256Hex
  rw [hexToNat_mk_natToHex64 _ (sha256Nat_lt _)]

lemma intFromHex_allF : intFromHex allF = .ok (2 ^ 256 - 1) := by decide

lemma allF_length : allF.length = 64 := by decide

/-- `calculate_hash` reads only `previous_hash`, `nonce` and the
transactions, never the stored `hash`. -/
lemma calculate_hash_hash_nonce (b : Block) (s : String) (n : Int) :
    Block.calculate_hash { b with hash := s, nonce := n } =
      Block.calculate_hash { b with nonce := n } := rfl

/-- Full characterisation of a terminating run of the mining loop: fields
other than `nonce`/`hash` are unchanged, the final hash is the digest at the
final nonce and it beats the target, and every nonce from the starting one
up to (excluding) the final one fails the target test. -/
lemma mineFuel_spec :
    ∀ (fuel target : Nat) (b b' : Block),
      Block.mineFuel target b fuel = .ok (some b') →
      b'.transactions = b.transactions ∧
      b'.previous_hash = b.previous_hash ∧
      b.nonce ≤ b'.nonce ∧
      (∃ h v, Block.calculate_hash { b with nonce := b'.nonce } = .ok h ∧
        b'.hash = h ∧ intFromHex h = .ok v ∧ v < target) ∧
      (∀ n : Int, b.nonce ≤ n → n < b'.nonce →
        ∀ h v, Block.calculate_hash { b with nonce := n } = .ok h →
          intFromHex h = .ok v → target ≤ v) := by
  intro fuel
  induction fuel with
  | zero => intro target b b' hrun; simp [Block.mineFuel] at hrun
  | succ k ih =>
    intro target b b' hrun
    simp only [Block.mineFuel] at hrun
    split at hrun
    · cases hrun
    · rename_i h hch
      split at hrun
      · cases hrun
      · rename_i v hfv
        split at hrun
        · rename_i hlt
          cases hrun
          refine ⟨rfl, rfl, le_refl _, ⟨h, v, ?_, rfl, hfv, hlt⟩, ?_⟩
          · exact hch
          · intro n h1 h2 _ _ _ _
            exact absurd (lt_of_le_of_lt h1 h2) (lt_irrefl _)
        · rename_i hlt
          obtain ⟨ht, hp, hn, ⟨h2, v2, hch2, hh2, hfv2, hlt2⟩, hmin⟩ :=
            ih target _ b' hrun
          refine ⟨ht, hp, ?_, ⟨h2, v2, hch2, hh2, hfv2, hlt2⟩, ?_⟩
          · have hstep : b.nonce + 1 ≤ b'.nonce := hn
            omega
          · intro n hn1 hn2 h3 v3 hch3 hfv3
            by_cases hcase : n = b.nonce
            · subst hcase
              have he1 : Except.ok (ε := PyErr) h3 = .ok h := hch3.symm.trans hch
              have he2 : h3 = h := by cases he1; rfl
              subst he2
              have he3 : Except.ok (ε := PyErr) v3 = .ok v := hfv3.symm.trans hfv
              have he4 : v3 = v := by cases he3; rfl
              subst he4
              omega
            · have hge : b.nonce + 1 ≤ n := by omega
              exact hmin n hge hn2 h3 v3 hch3 hfv3

/-- Inverting `calculate_hash`: a produced hash is a sha256 hex digest, so
it always re-parses as an integer of at most `2 ^ 256 - 1`. -/
lemma calculate_hash_inv (b : Block) (h : String)
    (hch : b.calculate_hash = .ok h) :
    ∃ v, intFromHex h = .ok v ∧ v ≤ 2 ^ 256 - 1 := by
  unfold Block.calculate_hash at hch
  split at hch
  · cases hch
  · rename_i mr hmr
    cases hch
    refine ⟨_, intFromHex_sha256Hex _, ?_⟩
    have := sha256Nat_lt (utf8Bytes (b.previous_hash ++ toString b.nonce ++ mr))
    omega

/-- A terminating `mine` run leaves the transactions and `previous_hash`
untouched. -/
lemma mine_ok_some_fields (b : Block) (difficulty : String) (fuel : Nat)
    (b' : Block) (hrun : b.mine difficulty fuel = .ok (some b')) :
    b'.transactions = b.transactions ∧ b'.previous_hash = b.previous_hash := by
  unfold Block.mine at hrun
  split at hrun
  · split at hrun
    · cases hrun
    · obtain ⟨h1, h2, _⟩ := mineFuel_spec _ _ _ _ hrun
      exact ⟨h1, h2⟩
  · cases hrun

/-- C1: whenever `mine` terminates, the final hash re-parses below the
target; digests are always at most `2 ^ 256 - 1`; and with the all-F target
(`2 ^ 256 - 1`) mining stops in the very first iteration, at the block's
initial nonce 0, provided only that the digest at nonce 0 is not the single
excluded value `2 ^ 256 - 1` itself. -/
theorem mine_hash_below_target :
    (∀ (b : Block) (difficulty : String) (fuel : Nat) (b' : Block),
      b.mine difficulty fuel = .ok (some b') →
      ∃ v t, intFromHex b'.hash = .ok v ∧ intFromHex difficulty = .ok t ∧ v < t) ∧
    (∀ (b : Block) (h : String), b.calculate_hash = .ok h →
      ∃ v, intFromHex h = .ok v ∧ v ≤ 2 ^ 256 - 1) ∧
    (∀ (b : Block) (h : String),
      b.nonce = 0 → b.calculate_hash = .ok h →
      intFromHex h ≠ .ok (2 ^ 256 - 1) →
      ∀ fuel : Nat, 0 < fuel →
        b.mine allF fuel = .ok (some { b with hash := h })) := by
  refine ⟨?_, fun b h hch => calculate_hash_inv b h hch, ?_⟩
  · intro b difficulty fuel b' hrun
    unfold Block.mine at hrun
    split at hrun
    · split at hrun
      · cases hrun
      · rename_i target htgt
        obtain ⟨_, _, _, ⟨h, v, hch, hh, hfv, hlt⟩, _⟩ :=
          mineFuel_spec fuel target b b' hrun
        exact ⟨v, target, hh ▸ hfv, htgt, hlt⟩
    · cases hrun
  · intro b h hn0 hch hne fuel hfuel
    obtain ⟨k, rfl⟩ : ∃ k, fuel = k + 1 := ⟨fuel - 1, by omega⟩
    obtain ⟨v, hfv, hvle⟩ := calculate_hash_inv b h hch
    have hvlt : v < 2 ^ 256 - 1 := by
      rcases lt_or_eq_of_le hvle with hcase | hcase
      · exact hcase
      · exact absurd (hcase ▸ hfv) hne
    have hm : Block.mine b allF (k + 1) = Block.mineFuel (2 ^ 256 - 1) b (k + 1) := by
      unfold Block.mine
      rw [if_pos allF_length, intFromHex_allF]
    rw [hm]
    simp only [Block.mineFuel, hch, hfv]
    rw [if_pos hvlt]

/-- C8: when `mine` terminates, the final nonce is the least nonce from the
starting one on whose digest value beats the target. -/
theorem mine_finds_least_nonce (b : Block) (difficulty : String) (fuel : Nat)
    (b' : Block) (hrun : b.mine difficulty fuel = .ok (some b')) :
    ∃ target, intFromHex difficulty = .ok target ∧
      b.nonce ≤ b'.nonce ∧
      (∃ h v, Block.calculate_hash { b with nonce := b'.nonce } = .ok h ∧
        b'.hash = h ∧ intFromHex h = .ok v ∧ v < target) ∧
      ∀ n : Int, b.nonce ≤ n → n < b'.nonce →
        ∀ h v, Block.calculate_hash { b with nonce := n } = .ok h →
          intFromHex h = .ok v → target ≤ v := by
  unfold Block.mine at hrun
  split at hrun
  · split at hrun
    · cases hrun
    · rename_i target htgt
      obtain ⟨_, _, h3, h4, h5⟩ := mineFuel_spec fuel target b b' hrun
      exact ⟨target, htgt, h3, h4, h5⟩
  · cases hrun

/-- C2 counterexample: `add_block` performs the append even when the new
block's `previous_hash` does not match the tip's hash — nothing is
rejected. -/
def cexTip : Block :=
  { transactions := [], previous_hash := genesisPrev, nonce := 0, hash := "aa" }

def cexBad : Block :=
  { transactions := [], previous_hash := "bb", nonce := 0, hash := "cc" }

/-- C2 is false on the code: a block whose `previous_hash` differs from the
tip's hash is appended anyway, with no contract violation. -/
theorem add_block_performs_mismatched_append :
    cexBad.previous_hash ≠ cexTip.hash ∧
    (Blockchain.mk [cexTip]).add_block cexBad = Blockchain.mk [cexTip, cexBad] :=
  ⟨by decide, rfl⟩

/-- C2 amended: `add_block` itself checks nothing and always appends; the
chain-linkage invariant is instead maintained by `mine_block`, which derives
`previous_hash` from the current tip (or the genesis sentinel). -/
theorem add_block_appends_mine_block_links :
    (∀ (bc : Blockchain) (b : Block), (bc.add_block b).blocks = bc.blocks ++ [b]) ∧
    (∀ (m : Miner) (fuel : Nat) (m2 : Miner) (blk : Block),
      m.mine_block fuel = .ok (some (m2, blk)) →
      blk.previous_hash =
        (match m.blockchain.blocks.getLast? with
         | none => genesisPrev
         | some tip => tip.hash) ∧
      m2.blockchain.blocks = m.blockchain.blocks ++ [blk]) := by
  refine ⟨fun bc b => rfl, ?_⟩
  intro m fuel m2 blk hrun
  simp only [Miner.mine_block] at hrun
  split at hrun
  · cases hrun
  · cases hrun
  · rename_i sealed hmine
    cases hrun
    refine ⟨?_, rfl⟩
    exact (mine_ok_some_fields _ _ _ _ hmine).2

/-- A concrete unsealed block (no transactions, genesis previous hash). -/
def wtBlock : Block := { transactions := [], previous_hash := genesisPrev }

/-- The digest of `wtBlock` at nonce 0. -/
def wtHash : String := sha256Hex (genesisPrev ++ toString (0 : Int) ++ sha256Hex "")

set_option maxRecDepth 10000 in
/-- Witness for C1: mining the concrete block against the all-F target
terminates in one step at nonce 0, and the sealed hash beats the target. -/
theorem mine_hash_below_target_witness :
    Block.mine wtBlock allF 1 = .ok (some { wtBlock with hash := wtHash }) ∧
    (∃ v t, intFromHex ({ wtBlock with hash := wtHash } : Block).hash = .ok v ∧
      intFromHex allF = .ok t ∧ v < t) := by
  have h1 : wtBlock.calculate_hash = .ok wtHash := rfl
  have h2 : intFromHex wtHash ≠ .ok (2 ^ 256 - 1) := by decide
  have hmine := mine_hash_below_target.2.2 wtBlock wtHash rfl h1 h2 1 (by norm_num)
  exact ⟨hmine, mine_hash_below_target.1 wtBlock allF 1 _ hmine⟩

set_option maxRecDepth 10000 in
/-- Witness for C8 at the same concrete block and the all-F target. -/
theorem mine_finds_least_nonce_witness :
    ∃ target, intFromHex allF = .ok target ∧
      wtBlock.nonce ≤ ({ wtBlock with hash := wtHash } : Block).nonce ∧
      (∃ h v, Block.calculate_hash
          { wtBlock with nonce := ({ wtBlock with hash := wtHash } : Block).nonce } = .ok h ∧
        ({ wtBlock with hash := wtHash } : Block).hash = h ∧
        intFromHex h = .ok v ∧ v < target) ∧
      ∀ n : Int, wtBlock.nonce ≤ n →
        n < ({ wtBlock with hash := wtHash } : Block).nonce →
        ∀ h v, Block.calculate_hash { wtBlock with nonce := n } = .ok h →
          intFromHex h = .ok v → target ≤ v :=
  mine_finds_least_nonce wtBlock allF 1 { wtBlock with hash := wtHash } (by rfl)

/-- The block that `mine_block` produces from a fresh miner whose difficulty
field was set to the all-F target. -/
def wtMined : Block :=
  { transactions := [], previous_hash := genesisPrev, nonce := 0, hash := wtHash }

def wtMiner : Miner := { difficulty := allF }

def wtMiner2 : Miner := { wtMiner with blockchain := Blockchain.mk [wtMined] }

set_option maxRecDepth 10000 in
/-- Witness for the amended C2: a concrete `mine_block` run appends a block
whose `previous_hash` is the genesis sentinel. -/
theorem add_block_appends_mine_block_links_witness :
    ((Blockchain.mk []).add_block cexTip).blocks = [] ++ [cexTip] ∧
    (wtMined.previous_hash =
      (match wtMiner.blockchain.blocks.getLast? with
       | none => genesisPrev
       | some tip => tip.hash) ∧
     wtMiner2.blockchain.blocks = wtMiner.blockchain.blocks ++ [wtMined]) :=
  ⟨add_block_appends_mine_block_links.1 (Blockchain.mk []) cexTip,
   add_block_appends_mine_block_links.2 wtMiner 1 wtMiner2 wtMined (by rfl)⟩

/-! ## Validation helper lemmas -/

/-- Every field the validator reads from one input is present. -/
def vinFieldsPresent (v : VinEntry) : Bool :=
  v.txid.isSome && v.vout.isSome &&
    (match v.prevout with
     | some p => p.value.isSome
     | none => false)

/-- The output carries its `value` field. -/
def voutFieldsPresent (o : VoutEntry) : Bool := o.value.isSome

/-- The record carries `vin`/`vout` lists and every field the validator may
subscript is present. -/
def txFieldsPresent (d : TxData) : Bool :=
  match d.vin, d.vout with
  | some vins, some vouts =>
    vins.all vinFieldsPresent && vouts.all voutFieldsPresent
  | _, _ => false

lemma txFieldsPresent_some (d : TxData) (h : txFieldsPresent d = true) :
    ∃ vins vouts, d.vin = some vins ∧ d.vout = some vouts ∧
      (∀ v ∈ vins, vinFieldsPresent v = true) ∧
      (∀ o ∈ vouts, voutFieldsPresent o = true) := by
  unfold txFieldsPresent at h
  split at h
  · rename_i vins vouts hv ho
    rw [Bool.and_eq_true, List.all_eq_true, List.all_eq_true] at h
    exact ⟨vins, vouts, hv, ho, h.1, h.2⟩
  · cases h

lemma vinUtxoKey_ok (v : VinEntry) (h : vinFieldsPresent v = true) :
    ∃ k, vinUtxoKey v = .ok k := by
  unfold vinFieldsPresent at h
  cases htxid : v.txid with
  | none => rw [htxid] at h; simp at h
  | some tid =>
    cases hvout : v.vout with
    | none => rw [htxid, hvout] at h; simp at h
    | some n => exact ⟨tid ++ toString n, by simp [vinUtxoKey, htxid, hvout]⟩

lemma anyExc_ok {α : Type} (f : α → Except PyErr Bool) :
    ∀ l : List α, (∀ a ∈ l, ∃ bl, f a = .ok bl) → ∃ bl, anyExc f l = .ok bl := by
  intro l
  induction l with
  | nil => exact fun _ => ⟨false, rfl⟩
  | cons a rest ih =>
    intro hall
    obtain ⟨bl, hbl⟩ := hall a (List.mem_cons_self a rest)
    cases bl
    · obtain ⟨bl2, hbl2⟩ := ih (fun x hx => hall x (List.mem_cons_of_mem _ hx))
      exact ⟨bl2, by simp [anyExc, hbl, hbl2]⟩
    · exact ⟨true, by simp [anyExc, hbl]⟩

lemma anyExc_ok_false {α : Type} (f : α → Except PyErr Bool) :
    ∀ l : List α, anyExc f l = .ok false → ∀ a ∈ l, f a = .ok false := by
  intro l
  induction l with
  | nil => intro _ a ha; cases ha
  | cons b rest ih =>
    intro hrun a ha
    unfold anyExc at hrun
    split at hrun
    · cases hrun
    · cases hrun
    · rename_i hfb
      rcases List.mem_cons.mp ha with rfl | hmem
      · exact hfb
      · exact ih hrun a hmem

lemma sumPrevExc_ok :
    ∀ vins : List VinEntry, (∀ v ∈ vins, vinFieldsPresent v = true) →
      ∃ s, sumPrevExc vins = .ok s := by
  intro vins
  induction vins with
  | nil => exact fun _ => ⟨0, rfl⟩
  | cons v rest ih =>
    intro hall
    have hv := hall v (List.mem_cons_self v rest)
    unfold vinFieldsPresent at hv
    cases hp : v.prevout with
    | none => simp [hp] at hv
    | some p =>
      cases hpv : p.value with
      | none => simp [hp, hpv] at hv
      | some x =>
        obtain ⟨s, hs⟩ := ih (fun y hy => hall y (List.mem_cons_of_mem _ hy))
        exact ⟨x + s, by simp [sumPrevExc, hp, hpv, hs, Except.map]⟩

lemma sumVoutExc_ok :
    ∀ vouts : List VoutEntry, (∀ o ∈ vouts, voutFieldsPresent o = true) →
      ∃ s, sumVoutExc vouts = .ok s := by
  intro vouts
  induction vouts with
  | nil => exact fun _ => ⟨0, rfl⟩
  | cons o rest ih =>
    intro hall
    have ho := hall o (List.mem_cons_self o rest)
    unfold voutFieldsPresent at ho
    cases hov : o.value with
    | none => rw [hov] at ho; simp at ho
    | some x =>
      obtain ⟨s, hs⟩ := ih (fun y hy => hall y (List.mem_cons_of_mem _ hy))
      exact ⟨x + s, by simp [sumVoutExc, hov, hs, Except.map]⟩

/-! ## Claims about transaction validation -/

/-- A structurally well-formed coinbase transaction: one input, marked
coinbase, with no prevout reference — exactly the shape the coinbase rule
on lines 36-39 of `main.py` demands. -/
def cbTx : Transaction :=
  { json_data :=
    { version := some 1, locktime := some 0,
      vin := some [{ txid := some "aa", vout := some 0, prevout := none,
                     is_coinbase := some true }],
      vout := some [{ value := some 0 }], witness := none },
    utxo_set := [] }

/-- C3: `is_valid` is not exception-free: on a prevout-less coinbase input
(the very shape its own coinbase rule requires) the fee computation on
line 29 subscripts the missing `"prevout"` key and raises `KeyError`
before the coinbase branch is reached. -/
theorem is_valid_raises_keyerror_on_coinbase :
    cbTx.is_valid = .error (.keyErr "prevout") := by decide

/-- On a record with all accessed fields present, `is_valid` returns a
boolean and never raises. -/
lemma is_valid_no_raise (t : Transaction) (hwf : txFieldsPresent t.json_data = true) :
    ∃ bl, t.is_valid = .ok bl := by
  obtain ⟨vins, vouts, hvin, hvout, hallv, hallo⟩ := txFieldsPresent_some _ hwf
  rcases vins with _ | ⟨v0, vrest⟩
  · refine ⟨false, ?_⟩
    simp only [Transaction.is_valid, hvin]
    split
    · rfl
    · split
      · rfl
      · split
        · rfl
        · split
          · rfl
          · rfl
  rcases vouts with _ | ⟨o0, orest⟩
  · refine ⟨false, ?_⟩
    simp only [Transaction.is_valid, hvin, hvout]
    split
    · rfl
    · split
      · rfl
      · split
        · rfl
        · split
          · rfl
          · rfl
  simp only [Transaction.is_valid, hvin, hvout]
  split
  · exact ⟨false, rfl⟩
  · split
    · exact ⟨false, rfl⟩
    · split
      · exact ⟨false, rfl⟩
      · split
        · exact ⟨false, rfl⟩
        · split
          · exact ⟨false, rfl⟩
          · obtain ⟨bl1, hbl1⟩ := anyExc_ok
              (fun v => (vinUtxoKey v).map (fun k => t.utxo_set.contains k))
              (v0 :: vrest)
              (fun a ha => by
                obtain ⟨k, hk⟩ := vinUtxoKey_ok a (hallv a ha)
                exact ⟨t.utxo_set.contains k, by simp [hk, Except.map]⟩)
            split
            · rename_i e heq
              rw [heq] at hbl1; cases hbl1
            · exact ⟨false, rfl⟩
            · obtain ⟨bl2, hbl2⟩ := anyExc_ok
                (fun o => match o.value with
                  | none => Except.error (PyErr.keyErr "value")
                  | some x => Except.ok (decide (x < 0)))
                (o0 :: orest)
                (fun a ha => by
                  have hp := hallo a ha
                  unfold voutFieldsPresent at hp
                  cases hov : a.value with
                  | none => rw [hov] at hp; simp at hp
                  | some x => exact ⟨decide (x < 0), by simp only [hov]⟩)
              split
              · rename_i e heq
                rw [heq] at hbl2; cases hbl2
              · exact ⟨false, rfl⟩
              · obtain ⟨s1, hs1⟩ := sumPrevExc_ok _ hallv
                obtain ⟨s2, hs2⟩ := sumVoutExc_ok _ hallo
                split
                · rename_i e heq
                  rw [heq] at hs1; cases hs1
                · split
                  · rename_i e heq
                    rw [heq] at hs2; cases hs2
                  · split
                    · exact ⟨false, rfl⟩
                    · split
                      · exact ⟨false, rfl⟩
                      · split
                        · exact ⟨false, rfl⟩
                        · exact ⟨true, rfl⟩

/-- Inverting an accepting run of `is_valid`: the vin list is a non-empty
present list, the UTXO-membership scan came back all-false, and the
coinbase rejection condition did not hold. -/
lemma is_valid_ok_true_inv (t : Transaction) (hok : t.is_valid = .ok true) :
    ∃ v0 vrest, t.json_data.vin = some (v0 :: vrest) ∧
      anyExc (fun v => (vinUtxoKey v).map (fun k => t.utxo_set.contains k))
        (v0 :: vrest) = .ok false ∧
      ¬((v0 :: vrest).any (fun v => v.is_coinbase.getD false) = true ∧
        ((v0 :: vrest).length ≠ 1 ∨ v0.prevout.isSome = true)) := by
  simp only [Transaction.is_valid] at hok
  split at hok
  · cases hok
  · split at hok
    · cases hok
    · split at hok
      · cases hok
      · split at hok
        · cases hok
        · split at hok
          · cases hok
          · cases hok
          · rename_i v0 vrest hvin
            split at hok
            · cases hok
            · cases hok
            · rename_i o0 orest hvout
              split at hok
              · cases hok
              · split at hok
                · cases hok
                · cases hok
                · rename_i hutxo
                  split at hok
                  · cases hok
                  · cases hok
                  · split at hok
                    · cases hok
                    · split at hok
                      · cases hok
                      · split at hok
                        · cases hok
                        · split at hok
                          · cases hok
                          · rename_i hcoin
                            split at hok
                            · cases hok
                            · exact ⟨v0, vrest, hvin, hutxo, hcoin⟩

/-- The two inputs of the C5 counterexample: a coinbase-marked input without
a prevout, plus an ordinary input. -/
def cb2Vins : List VinEntry :=
  [{ txid := some "aa", vout := some 0, prevout := none, is_coinbase := some true },
   { txid := some "bb", vout := some 0, prevout := some { value := some 5 },
     is_coinbase := none }]

def cb2Tx : Transaction :=
  { json_data :=
    { version := some 1, locktime := some 0, vin := some cb2Vins,
      vout := some [{ value := some 0 }], witness := none },
    utxo_set := [] }

/-- C5 counterexample: this record has a coinbase input together with a
second input, yet `is_valid` does not return `false` — it raises `KeyError`
at the fee sum (line 29) because the coinbase input carries no prevout. -/
theorem multi_input_coinbase_raises_cex :
    cb2Tx.json_data.vin = some cb2Vins ∧
    cb2Vins.any (fun v => v.is_coinbase.getD false) = true ∧
    2 ≤ cb2Vins.length ∧
    cb2Tx.is_valid = .error (.keyErr "prevout") :=
  ⟨rfl, by decide, by decide, by decide⟩

/-- C5 amended: on records where every accessed field is present (in
particular every input carries a prevout value), a transaction with a
coinbase-marked input and at least two inputs is rejected with `false`. -/
theorem is_valid_rejects_multi_input_coinbase (t : Transaction)
    (vins : List VinEntry)
    (hvin : t.json_data.vin = some vins)
    (hwf : txFieldsPresent t.json_data = true)
    (hcb : vins.any (fun v => v.is_coinbase.getD false) = true)
    (hlen : 2 ≤ vins.length) :
    t.is_valid = .ok false := by
  obtain ⟨bl, hbl⟩ := is_valid_no_raise t hwf
  cases bl
  · exact hbl
  · exfalso
    obtain ⟨v0, vrest, hvin2, _, hcoin⟩ := is_valid_ok_true_inv t hbl
    have heq : some vins = some (v0 :: vrest) := hvin.symm.trans hvin2
    cases heq
    refine hcoin ⟨hcb, Or.inl ?_⟩
    simp only [List.length_cons] at hlen ⊢
    omega

/-- The inputs of the C5 witness: a coinbase-marked input and a second
input, both carrying prevout values. -/
def cbwVins : List VinEntry :=
  [{ txid := some "aa", vout := some 0, prevout := some { value := some 7 },
     is_coinbase := some true },
   { txid := some "bb", vout := some 1, prevout := some { value := some 5 },
     is_coinbase := none }]

def cbwTx : Transaction :=
  { json_data :=
    { version := some 1, locktime := some 0, vin := some cbwVins,
      vout := some [{ value := some 3 }], witness := none },
    utxo_set := [] }

/-- Witness for the amended C5 at a concrete two-input coinbase record. -/
theorem is_valid_rejects_multi_input_coinbase_witness :
    cbwTx.is_valid = .ok false :=
  is_valid_rejects_multi_input_coinbase cbwTx cbwVins rfl (by decide)
    (by decide) (by decide)

/-- The duplicated input of the C6 counterexample. -/
def dupVin : VinEntry :=
  { txid := some "aa", vout := some 0, prevout := some { value := some 10 },
    is_coinbase := none }

def dupTx : Transaction :=
  { json_data :=
    { version := some 1, locktime := some 0, vin := some [dupVin, dupVin],
      vout := some [{ value := some 5 }], witness := none },
    utxo_set := [] }

/-- C6 counterexample: `is_valid` accepts a transaction whose two inputs
reference the identical `(txid, vout)` pair — the scan on line 25 only
checks membership in the UTXO set, never intra-transaction duplication. -/
theorem is_valid_accepts_duplicate_inputs_cex :
    dupTx.is_valid = .ok true ∧
    dupTx.json_data.vin = some [dupVin, dupVin] ∧
    vinUtxoKey dupVin = .ok "aa0" :=
  ⟨by decide, rfl, by decide⟩

/-- C6 amended: what line 25 does guarantee on acceptance — no input's
`(txid, vout)` key is present in the consulted UTXO set. -/
theorem is_valid_inputs_not_in_utxo (t : Transaction)
    (hok : t.is_valid = .ok true)
    (vins : List VinEntry) (hvin : t.json_data.vin = some vins) :
    ∀ v ∈ vins, ∃ k, vinUtxoKey v = .ok k ∧ t.utxo_set.contains k = false := by
  obtain ⟨v0, vrest, hvin2, hutxo, _⟩ := is_valid_ok_true_inv t hok
  have heq : some vins = some (v0 :: vrest) := hvin.symm.trans hvin2
  cases heq
  intro v hv
  have hf := anyExc_ok_false _ _ hutxo v hv
  cases hk : vinUtxoKey v with
  | error e => rw [hk] at hf; simp [Except.map] at hf
  | ok k =>
    rw [hk] at hf
    have hinj : Except.ok (ε := PyErr) (t.utxo_set.contains k) = Except.ok false := hf
    injection hinj with h2
    exact ⟨k, rfl, h2⟩

/-- Witness for the amended C6 at the accepted duplicate-input record. -/
theorem is_valid_inputs_not_in_utxo_witness :
    ∃ k, vinUtxoKey dupVin = .ok k ∧ dupTx.utxo_set.contains k = false :=
  is_valid_inputs_not_in_utxo dupTx (by decide) [dupVin, dupVin] rfl dupVin
    (List.mem_cons_self _ _)

/-- C10: the `txid` property is the `txid` field of the first input; with
an empty `vin` list the subscript `[0]` raises `IndexError` instead of
returning a value. -/
theorem txid_from_first_input :
    (∀ (t : Transaction) (v0 : VinEntry) (rest : List VinEntry) (s : String),
      t.json_data.vin = some (v0 :: rest) → v0.txid = some s →
      t.txid = .ok s) ∧
    (∀ t : Transaction, t.json_data.vin = some [] →
      t.txid = .error .indexErr) := by
  constructor
  · intro t v0 rest s hvin htxid
    simp only [Transaction.txid, hvin, htxid]
  · intro t hvin
    simp only [Transaction.txid, hvin]

/-- The single input of the C10 witness record. -/
def txidVin : VinEntry :=
  { txid := some "cc", vout := none, prevout := none, is_coinbase := none }

def txidTx : Transaction :=
  { json_data := { version := none, locktime := none, vin := some [txidVin],
                   vout := none, witness := none },
    utxo_set := [] }

def emptyVinTx : Transaction :=
  { json_data := { version := none, locktime := none, vin := some [],
                   vout := none, witness := none },
    utxo_set := [] }

/-- Witness for C10 on two concrete records. -/
theorem txid_from_first_input_witness :
    txidTx.txid = .ok "cc" ∧ emptyVinTx.txid = .error .indexErr :=
  ⟨txid_from_first_input.1 txidTx txidVin [] "cc" rfl rfl,
   txid_from_first_input.2 emptyVinTx rfl⟩

/-- C7: with at least 15 pooled transactions, selection returns exactly the
first ten, in pool order. -/
theorem select_takes_first_ten (m : Miner)
    (hlen : 15 ≤ m.transactions.length) :
    (m.select_transactions_for_block).length = 10 ∧
    ∀ i : Nat, i < 10 →
      (m.select_transactions_for_block)[i]? = m.transactions[i]? := by
  constructor
  · simp only [Miner.select_transactions_for_block, List.length_take]
    omega
  · intro i hi
    simp only [Miner.select_transactions_for_block]
    rw [List.getElem?_take, if_pos hi]

/-- A structurally empty pooled transaction record. -/
def poolTx : Transaction :=
  { json_data := { version := none, locktime := none, vin := none,
                   vout := none, witness := none },
    utxo_set := [] }

def bigPoolMiner : Miner := { transactions := List.replicate 15 poolTx }

/-- Witness for C7 at a pool of 15 transactions. -/
theorem select_takes_first_ten_witness :
    15 ≤ bigPoolMiner.transactions.length ∧
    ((bigPoolMiner.select_transactions_for_block).length = 10 ∧
     ∀ i : Nat, i < 10 →
       (bigPoolMiner.select_transactions_for_block)[i]? =
         bigPoolMiner.transactions[i]?) :=
  ⟨by decide, select_takes_first_ten bigPoolMiner (by decide)⟩

/-- C9: with fewer than ten pooled transactions, selection returns the whole
pool unchanged. -/
theorem select_small_pool_returns_all (m : Miner)
    (hlen : m.transactions.length < 10) :
    m.select_transactions_for_block = m.transactions := by
  simp only [Miner.select_transactions_for_block]
  exact List.take_of_length_le (Nat.le_of_lt hlen)

def smallPoolMiner : Miner := { transactions := List.replicate 3 poolTx }

/-- Witness for C9 at a pool of 3 transactions. -/
theorem select_small_pool_returns_all_witness :
    smallPoolMiner.transactions.length < 10 ∧
    smallPoolMiner.select_transactions_for_block = smallPoolMiner.transactions :=
  ⟨by decide, select_small_pool_returns_all smallPoolMiner (by decide)⟩

/-- Collecting txids commutes with permutation: a permuted transaction list
yields a permutation of the collected txids (when collection succeeds). -/
lemma txidsOf_perm {l1 l2 : List Transaction} (hperm : l1.Perm l2) :
    ∀ ids1, txidsOf l1 = .ok ids1 →
      ∃ ids2, txidsOf l2 = .ok ids2 ∧ ids1.Perm ids2 := by
  induction hperm with
  | nil => exact fun ids1 h => ⟨ids1, h, List.Perm.refl _⟩
  | cons x hp ih =>
    intro ids1 h
    simp only [txidsOf] at h
    split at h
    · cases h
    · rename_i s hs
      split at h
      · cases h
      · rename_i rest1 hrest1
        cases h
        obtain ⟨rest2, hrest2, hpermr⟩ := ih rest1 hrest1
        exact ⟨s :: rest2, by simp [txidsOf, hs, hrest2], hpermr.cons s⟩
  | swap a b l =>
    intro ids1 h
    cases ha : a.txid with
    | error e =>
      cases hb : b.txid with
      | error e2 => simp [txidsOf, ha, hb] at h
      | ok sb => simp [txidsOf, ha, hb] at h
    | ok sa =>
      cases hb : b.txid with
      | error e2 => simp [txidsOf, ha, hb] at h
      | ok sb =>
        cases hl : txidsOf l with
        | error e3 => simp [txidsOf, ha, hb, hl] at h
        | ok ids =>
          simp only [txidsOf, ha, hb, hl] at h
          cases h
          exact ⟨sa :: sb :: ids, by simp [txidsOf, ha, hb, hl],
            List.Perm.swap sa sb ids⟩
  | trans h12 h23 ih12 ih23 =>
    intro ids1 h
    obtain ⟨ids2, h2, p12⟩ := ih12 ids1 h
    obtain ⟨ids3, h3, p23⟩ := ih23 ids2 h2
    exact ⟨ids3, h3, p12.trans p23⟩

/-- Sorting with the Python string order is invariant under permutation of
the input list. -/
lemma insertionSort_pyLe_perm_eq {l1 l2 : List String} (h : l1.Perm l2) :
    List.insertionSort pyLe l1 = List.insertionSort pyLe l2 :=
  List.eq_of_perm_of_sorted
    (((List.perm_insertionSort _ l1).trans h).trans
      (List.perm_insertionSort _ l2).symm)
    (List.sorted_insertionSort _ l1) (List.sorted_insertionSort _ l2)

/-- A transaction whose derived txid is `s` (txid of its first input). -/
def mkTxid (s : String) : Transaction :=
  { json_data :=
    { version := none, locktime := none,
      vin := some [{ txid := some s, vout := none, prevout := none,
                     is_coinbase := none }],
      vout := none, witness := none },
    utxo_set := [] }

def cexBlockA : Block :=
  { transactions := [mkTxid "aba", mkTxid "ba"], previous_hash := "" }

def cexBlockB : Block :=
  { transactions := [mkTxid "aba", mkTxid "ab"], previous_hash := "" }

/-- C4 counterexample: replacing the single txid `"ba"` by the different
txid `"ab"` (the other txid `"aba"` fixed) leaves the Merkle root
unchanged, because both sorted concatenations are `"ababa"`. -/
theorem merkle_root_single_txid_change_cex :
    txidsOf cexBlockA.transactions = .ok ["aba", "ba"] ∧
    txidsOf cexBlockB.transactions = .ok ["aba", "ab"] ∧
    ("ba" : String) ≠ "ab" ∧
    cexBlockA.merkle_root = cexBlockB.merkle_root :=
  ⟨rfl, rfl, by decide, rfl⟩

/-- C4 amended: the Merkle root is invariant under permutation of the
transaction ordering, and more generally depends only on the sorted
concatenation of the txids — so a single-txid replacement changes the root
only if it changes that concatenation. -/
theorem merkle_root_perm_sorted_concat :
    (∀ (b1 b2 : Block) (r : String), b1.transactions.Perm b2.transactions →
      b1.merkle_root = .ok r → b2.merkle_root = .ok r) ∧
    (∀ (b1 b2 : Block) (ids1 ids2 : List String),
      txidsOf b1.transactions = .ok ids1 →
      txidsOf b2.transactions = .ok ids2 →
      String.join (List.insertionSort pyLe ids1) =
        String.join (List.insertionSort pyLe ids2) →
      b1.merkle_root = b2.merkle_root) := by
  constructor
  · intro b1 b2 r hperm hr
    simp only [Block.merkle_root] at hr ⊢
    split at hr
    · cases hr
    · rename_i ids1 hids1
      cases hr
      obtain ⟨ids2, hids2, hpids⟩ := txidsOf_perm hperm ids1 hids1
      simp only [hids2]
      rw [insertionSort_pyLe_perm_eq hpids.symm]
  · intro b1 b2 ids1 ids2 h1 h2 hjoin
    simp only [Block.merkle_root, h1, h2, hjoin]

def permBlockA : Block :=
  { transactions := [mkTxid "aba", mkTxid "ba"], previous_hash := "" }

def permBlockB : Block :=
  { transactions := [mkTxid "ba", mkTxid "aba"], previous_hash := "" }

/-- Witness for C4 at two concrete two-transaction blocks that permute the
same transactions. -/
theorem merkle_root_perm_sorted_concat_witness :
    permBlockB.merkle_root = .ok (sha256Hex "ababa") ∧
    permBlockA.merkle_root = permBlockB.merkle_root :=
  ⟨merkle_root_perm_sorted_concat.1 permBlockA permBlockB (sha256Hex "ababa")
      (List.Perm.swap (mkTxid "ba") (mkTxid "aba") []) rfl,
   merkle_root_perm_sorted_concat.2 permBlockA permBlockB ["aba", "ba"]
      ["ba", "aba"] rfl rfl rfl⟩
